import Mathlib

/-!
Verification of the tiny-task workflow library (Task lifecycle, Flow graph
walker, ParallelTask bounded-concurrency batch executor) against its
natural-language specification.

The embedding is a shallow one:
* the shared context (a mutable string-keyed JS object) is an association
  list threaded through explicitly;
* the overridable lifecycle hooks (`prepare`, `exec`, `post`,
  `updateSharedData`) are fields of a structure; a hook that may raise is a
  function into `Except String`;
* `async`/`await` sequencing inside one task is deterministic, so promises
  are elided; loops that may diverge (`Flow.execute` on cyclic graphs, the
  chunk loop of `processInParallel` with a non-positive `maxConcurrency`)
  take explicit fuel and return `Option`, `none` meaning the loop did not
  finish within the fuel;
* wall-clock fields (`processingTime`) are not modelled.
-/

set_option autoImplicit false

namespace Tiny

/-- Shared context: the mutable string-keyed object passed through a flow,
modelled as an association list (first entry with a key wins). -/
abbrev SharedData (V : Type) := List (String × V)

/-- Read a key of the shared context (JS property read; `none` = absent). -/
def getKey {V : Type} (s : SharedData V) (k : String) : Option V :=
  match s with
  | [] => none
  | (k', v) :: rest => if k' = k then some v else getKey rest k

/-- Write a key of the shared context (JS property write, overwriting the
existing entry when present). -/
def setKey {V : Type} (s : SharedData V) (k : String) (v : V) : SharedData V :=
  match s with
  | [] => [(k, v)]
  | (k', v') :: rest =>
    if k' = k then (k', v) :: rest else (k', v') :: setKey rest k v

/-- Embedding of the abstract class `Task` of `src/src/task.ts` (and the
identical `src/node.ts`).  The lifecycle hooks are pure functions of the
shared context; a hook that raises is modelled by `Except.error`.
`updateSharedData` (the merge step) is the lifecycle's write-back point; its
default implementation is `fun s r => setKey s name r`
(`shared[this.name] = result`), but a subclass may override it, so it is an
arbitrary field here. -/
structure Task (V P R : Type) where
  name : String
  prepare : SharedData V → Except String P
  exec : P → Except String R
  post : SharedData V → P → R → Except String String
  updateSharedData : SharedData V → R → SharedData V

/-- `Task.run` from `src/src/task.ts` lines 44-73: prepare, exec, post in
sequence, then the `updateSharedData` merge, returning the outcome label
from `post`; any raise in a phase is caught and converted to the label
`"error"` with no merge performed. -/
def Task.run {V P R : Type} (t : Task V P R) (shared : SharedData V) :
    String × SharedData V :=
  match t.prepare shared with
  | .error _ => ("error", shared)
  | .ok prepared =>
    match t.exec prepared with
    | .error _ => ("error", shared)
    | .ok result =>
      match t.post shared prepared result with
      | .error _ => ("error", shared)
      | .ok nextNode => (nextNode, t.updateSharedData shared result)

/-- `true` exactly when one of the three phases of `Task.run` raises on this
shared context (the `catch` branch of `run` is taken). -/
def Task.phaseRaises {V P R : Type} (t : Task V P R) (shared : SharedData V) :
    Bool :=
  match t.prepare shared with
  | .error _ => true
  | .ok prepared =>
    match t.exec prepared with
    | .error _ => true
    | .ok result =>
      match t.post shared prepared result with
      | .error _ => true
      | .ok _ => false

/-- Concrete task whose `exec` phase raises; used to witness the failure
path of `Task.run`. -/
def failingExecTask : Task Nat Nat Nat where
  name := "w"
  prepare := fun _ => .ok 0
  exec := fun _ => .error "boom"
  post := fun _ _ _ => .ok "default"
  updateSharedData := fun s r => setKey s "w" r

/-- A task as the `Flow` of `flow.ts` (`src/unnamed/part_000`) sees it — the
`ITask` interface: a `run` behaviour and a successor table mapping outcome
labels to tasks.  The successor graph may be cyclic, so tasks are addressed
by identifiers (`Nat`) and a graph is a function from identifier to task. -/
structure FlowTask (V : Type) where
  runFn : SharedData V → String × SharedData V
  successors : List (String × Nat)

/-- Property lookup `successors[label]` on the successor table. -/
def lookupSucc (succ : List (String × Nat)) (label : String) : Option Nat :=
  match succ with
  | [] => none
  | (l, t) :: rest => if l = label then some t else lookupSucc rest label

/-- The `Flow` object state of `flow.ts`: a fixed start task and the mutable
`currentTask` cursor (`none` models the TypeScript `null`). -/
structure Flow where
  startTask : Nat
  currentTask : Option Nat
deriving DecidableEq

/-- The `Flow` constructor: the cursor is initialised to the start task. -/
def Flow.make (start : Nat) : Flow := ⟨start, some start⟩

/-- The `while (current)` loop body of `Flow.execute` (`flow.ts` lines
18-38), with fuel: run the current task; stop on the labels `"end"` and
`"error"`; stop (after a warning log) when the successor table has no entry
for the label; otherwise advance the local cursor and repeat.  Returns the
final value of the local cursor together with the shared context, or `none`
when the fuel runs out (the loop did not terminate within `fuel` runs). -/
def executeAux {V : Type} (g : Nat → FlowTask V) :
    Nat → Nat → SharedData V → Option (Nat × SharedData V)
  | 0, _, _ => none
  | fuel + 1, current, shared =>
    let step := (g current).runFn shared
    if step.1 = "end" ∨ step.1 = "error" then
      some (current, step.2)
    else
      match lookupSucc (g current).successors step.1 with
      | none => some (current, step.2)
      | some next => executeAux g fuel next step.2

/-- `Flow.execute`: starts the walk from `this.currentTask || this.startTask`
and returns the (mutated) shared context together with the flow object as it
stands after the call.  The source mutates only a local variable `current`;
the `Flow` fields are returned unchanged. -/
def Flow.execute {V : Type} (g : Nat → FlowTask V) (f : Flow) (fuel : Nat)
    (shared : SharedData V) : Option (SharedData V × Flow) :=
  match executeAux g fuel (f.currentTask.getD f.startTask) shared with
  | none => none
  | some (_, shared') => some (shared', f)

/-- `Flow.reset`: rewind the cursor to the start task. -/
def Flow.reset (f : Flow) : Flow := ⟨f.startTask, some f.startTask⟩

/-- `Flow.getCurrentTask`. -/
def Flow.getCurrentTask (f : Flow) : Option Nat := f.currentTask

/-- `Flow.setCurrentTask`. -/
def Flow.setCurrentTask (f : Flow) (t : Nat) : Flow := ⟨f.startTask, some t⟩

/-- Concrete two-task graph used by the Flow witnesses: task `0` returns
`"default"` and has task `1` as its `"default"` successor; task `1` returns
`"end"`. -/
def wGraph : Nat → FlowTask Nat := fun n =>
  match n with
  | 0 => ⟨fun s => ("default", s), [("default", 1)]⟩
  | _ => ⟨fun s => ("end", s), []⟩

/-- One entry of `ParallelTaskResult.errors`: the `{index, error, data}`
record pushed for a failing item (`parallel-task.ts` lines 101-108 and 117).
The index is the JS number `globalIndex = i + batchIndex`, an `Int` here
because the chunk loop variable `i` is an `Int`. -/
structure ErrorRecord (I : Type) where
  index : Int
  error : String
  data : I
deriving DecidableEq

/-- `ParallelTaskResult` of `parallel-task.ts`: the aggregate a parallel
batch produces.  A `results` entry `none` is the `null`/`undefined`
placeholder pushed while padding; `processingTime` (wall clock) is not
modelled. -/
structure ParallelTaskResult (R I : Type) where
  results : List (Option R)
  errors : List (ErrorRecord I)
  totalProcessed : Nat
  totalErrors : Nat
deriving DecidableEq

/-- JS `Array.prototype.slice(start, stop)` on a list, with the ECMAScript
clamping rules for negative and out-of-range indices. -/
def jsSlice {α : Type} (l : List α) (start stop : Int) : List α :=
  let n : Int := l.length
  let s : Int := if start < 0 then max (n + start) 0 else min start n
  let e : Int := if stop < 0 then max (n + stop) 0 else min stop n
  (l.take e.toNat).drop s.toNat

/-- Grow the results array with `null` placeholders until its length is at
least `n` (the `while (results.length <= index) results.push(null)` loop). -/
def padTo {R : Type} (results : List (Option R)) (n : Nat) : List (Option R) :=
  results ++ List.replicate (n - results.length) none

/-- Record a success at `index`: pad the results array up to `index`, then
set position `index` (`results[index] = result`). -/
def setResult {R : Type} (results : List (Option R)) (index : Nat) (r : R) :
    List (Option R) :=
  (padTo results (index + 1)).set index (some r)

/-- The settled outcomes of one batch, in launch order, as the wrapped
per-item workers produce them (`batch.map(async (item, batchIndex) => ...)`
with `globalIndex = i + batchIndex`; `Promise.all` preserves launch order
regardless of completion order): each entry is the global index, the
captured outcome of `execItem`, and the original item. -/
def settleBatch {I R : Type} (execItem : I → Except String R)
    (globalIndex : Int) : List I → List (Int × Except String R × I)
  | [] => []
  | item :: rest =>
    (globalIndex, execItem item, item) :: settleBatch execItem (globalIndex + 1) rest

/-- The `batchResults.forEach` body: a failure is appended to `errors`; a
success is written into `results` at its global index after padding. -/
def recordOne {I R : Type}
    (state : List (Option R) × List (ErrorRecord I))
    (entry : Int × Except String R × I) :
    List (Option R) × List (ErrorRecord I) :=
  match entry with
  | (index, .error e, item) => (state.1, state.2 ++ [⟨index, e, item⟩])
  | (index, .ok r, _) => (setResult state.1 index.toNat r, state.2)

/-- The chunk loop of `processInParallel` (`parallel-task.ts` lines 94-126):
`for (let i = 0; i < items.length; i += maxConcurrency)`, each iteration
slicing the batch `items.slice(i, i + maxConcurrency)`, settling it, and
folding the settled outcomes into the `(results, errors)` state.  Fuel
bounds the number of iterations; `none` means the loop did not finish
within the fuel (it never does when `maxConcurrency ≤ 0` and `items` is
non-empty). -/
def processChunks {I R : Type} (execItem : I → Except String R)
    (maxConcurrency : Int) (items : List I) :
    Nat → Int → List (Option R) × List (ErrorRecord I) →
    Option (List (Option R) × List (ErrorRecord I))
  | 0, _, _ => none
  | fuel + 1, i, state =>
    if i < (items.length : Int) then
      processChunks execItem maxConcurrency items fuel (i + maxConcurrency)
        ((settleBatch execItem i (jsSlice items i (i + maxConcurrency))).foldl
          recordOne state)
    else
      some state

/-- `ParallelTask.processInParallel`: run the chunk loop from `i = 0` with
empty `results`/`errors` and assemble the `ParallelTaskResult`
(`totalProcessed: items.length`, `totalErrors: errors.length`). -/
def processInParallel {I R : Type} (execItem : I → Except String R)
    (maxConcurrency : Int) (items : List I) (fuel : Nat) :
    Option (ParallelTaskResult R I) :=
  match processChunks execItem maxConcurrency items fuel 0 ([], []) with
  | none => none
  | some (results, errors) => some ⟨results, errors, items.length, errors.length⟩

/-- Embedding of the abstract class `ParallelTask` (`parallel-task.ts` and
`src/packages/parallel/src/parallel.ts`): the two required hooks
`prepare` (shared → item array) and `execItem` (per-item worker, may
raise), the overridable `post` and `updateSharedData`, and the
`maxConcurrency` configuration.  The default `updateSharedData` is
`fun s r => setKey s name r`; the default `post` returns `"default"`. -/
structure ParallelTask (V I R : Type) where
  name : String
  maxConcurrency : Int
  prepare : SharedData V → Except String (List I)
  execItem : I → Except String R
  post : SharedData V → List I → ParallelTaskResult R I → Except String String
  updateSharedData : SharedData V → ParallelTaskResult R I → SharedData V

/-- `ParallelTask.run` (`parallel-task.ts` lines 144-172): prepare; if the
prepared array is empty, log a warning and return `"default"` without
processing or merging; otherwise process in parallel, run `post`, merge via
`updateSharedData`, and return the label from `post`; any raise is caught
and converted to `"error"`. -/
def ParallelTask.run {V I R : Type} (t : ParallelTask V I R) (fuel : Nat)
    (shared : SharedData V) : Option (String × SharedData V) :=
  match t.prepare shared with
  | .error _ => some ("error", shared)
  | .ok prepared =>
    if prepared.length = 0 then
      some ("default", shared)
    else
      match processInParallel t.execItem t.maxConcurrency prepared fuel with
      | none => none
      | some result =>
        match t.post shared prepared result with
        | .error _ => some ("error", shared)
        | .ok nextTask => some (nextTask, t.updateSharedData shared result)

/-- Specification-level sequential recording: process one item whose global
index is the counter in the state, then bump the counter.  Folding this
over the whole input in order is what the chunked loop amounts to. -/
def recordItem {I R : Type} (execItem : I → Except String R)
    (st : Nat × List (Option R) × List (ErrorRecord I)) (item : I) :
    Nat × List (Option R) × List (ErrorRecord I) :=
  match execItem item with
  | .error msg => (st.1 + 1, st.2.1, st.2.2 ++ [⟨(st.1 : Int), msg, item⟩])
  | .ok r => (st.1 + 1, setResult st.2.1 st.1 r, st.2.2)

/-- Fold `recordItem` over a list of items. -/
def seqFold {I R : Type} (execItem : I → Except String R) (l : List I)
    (st : Nat × List (Option R) × List (ErrorRecord I)) :
    Nat × List (Option R) × List (ErrorRecord I) :=
  l.foldl (recordItem execItem) st

/-- Index of the last item of `l` on which `execItem` succeeds, if any. -/
def lastSuccess {I R : Type} (execItem : I → Except String R) :
    List I → Option Nat
  | [] => none
  | item :: rest =>
    match lastSuccess execItem rest with
    | some k => some (k + 1)
    | none => match execItem item with | .ok _ => some 0 | .error _ => none

/-- The error records of `l` in order, indices counted from `g`: one record
`{index, error, item}` per failing item, none for a succeeding item. -/
def errListFrom {I R : Type} (execItem : I → Except String R) (g : Nat) :
    List I → List (ErrorRecord I)
  | [] => []
  | item :: rest =>
    match execItem item with
    | .error msg => ⟨(g : Int), msg, item⟩ :: errListFrom execItem (g + 1) rest
    | .ok _ => errListFrom execItem (g + 1) rest

/-- Partition a list into contiguous chunks of size `mc` (the last possibly
shorter); for `mc ≥ 1` these are exactly the batches the chunk loop takes. -/
def chunkList {α : Type} (mc : Nat) : List α → List (List α)
  | [] => []
  | x :: xs => (x :: xs.take (mc - 1)) :: chunkList mc (xs.drop (mc - 1))
termination_by l => l.length
decreasing_by simp [List.length_drop]; omega

/-- Concrete per-item worker for the parallel witnesses: negative inputs
raise, non-negative inputs are doubled. -/
def wExecItem : Int → Except String Int :=
  fun x => if x < 0 then .error "negative" else .ok (2 * x)

/-- Concrete input batch for the parallel witnesses (item 1 fails). -/
def wItems : List Int := [1, -5, 3]

/-- The `ParallelTaskResult` that `processInParallel` produces on `wItems`
with `maxConcurrency = 2`. -/
def wRes : ParallelTaskResult Int Int :=
  ⟨[some 2, none, some 6], [⟨1, "negative", -5⟩], 3, 1⟩

/-- Concrete input whose tail is all failures (only index 1 succeeds). -/
def wTailFail : List Int := [-1, 4, -2, -3]

/-- The `ParallelTaskResult` produced on `wTailFail` with
`maxConcurrency = 2`: the results array stops after the last success. -/
def wTailRes : ParallelTaskResult Int Int :=
  ⟨[none, some 8],
   [⟨0, "negative", -1⟩, ⟨2, "negative", -2⟩, ⟨3, "negative", -3⟩], 4, 3⟩

/-- Concrete parallel task whose `prepare` yields the empty array; used to
witness the empty-input short-circuit of `ParallelTask.run`.  Its
`updateSharedData` is the source default (`shared[this.name] = result`). -/
def emptyPrepTask : ParallelTask (ParallelTaskResult Nat Nat) Nat Nat where
  name := "p"
  maxConcurrency := 2
  prepare := fun _ => .ok []
  execItem := fun n => .ok n
  post := fun _ _ _ => .ok "default"
  updateSharedData := fun s r => setKey s "p" r

/-- Claim C1: for every task and every shared context, if the prepare, exec,
or post phase inside `Task.run` raises, `run` catches the exception and
returns the outcome label `"error"` (never propagating an exception — `run`
is a total function in this embedding), the `updateSharedData` merge step is
not executed, and the shared context is returned exactly as it was (no
partial write): the result is literally `("error", shared)`. -/
theorem run_returns_error_and_skips_merge_on_phase_failure
    {V P R : Type} (t : Task V P R) (shared : SharedData V)
    (h : t.phaseRaises shared = true) :
    t.run shared = ("error", shared) := by
  unfold Task.phaseRaises at h
  unfold Task.run
  cases hp : t.prepare shared with
  | error e => rfl
  | ok prepared =>
    simp only [hp] at h ⊢
    cases he : t.exec prepared with
    | error e => rfl
    | ok result =>
      simp only [he] at h ⊢
      cases hq : t.post shared prepared result with
      | error e => rfl
      | ok nextNode => simp only [hq] at h; simp at h

/-- Witness for C1: a concrete task whose `exec` raises, run on a concrete
shared context; `run` yields `"error"` and the context is untouched. -/
theorem run_returns_error_and_skips_merge_on_phase_failure_witness :
    failingExecTask.phaseRaises [("x", 5)] = true ∧
    failingExecTask.run [("x", 5)] = ("error", [("x", 5)]) :=
  ⟨rfl, run_returns_error_and_skips_merge_on_phase_failure
    failingExecTask [("x", 5)] rfl⟩

/-- Claim C2: each iteration of the `Flow.execute` loop runs the current
task and then: stops immediately when `run` returned exactly `"end"` or
`"error"`; stops (after a warning log) when the current task's successor
table has no entry for the returned label; and otherwise advances the
cursor to `successors[label]` and repeats. -/
theorem execute_iteration_behavior {V : Type} (g : Nat → FlowTask V)
    (fuel current : Nat) (shared : SharedData V) :
    (((g current).runFn shared).1 = "end" ∨ ((g current).runFn shared).1 = "error" →
      executeAux g (fuel + 1) current shared =
        some (current, ((g current).runFn shared).2)) ∧
    (¬ (((g current).runFn shared).1 = "end" ∨ ((g current).runFn shared).1 = "error") →
      lookupSucc (g current).successors ((g current).runFn shared).1 = none →
      executeAux g (fuel + 1) current shared =
        some (current, ((g current).runFn shared).2)) ∧
    (∀ next,
      ¬ (((g current).runFn shared).1 = "end" ∨ ((g current).runFn shared).1 = "error") →
      lookupSucc (g current).successors ((g current).runFn shared).1 = some next →
      executeAux g (fuel + 1) current shared =
        executeAux g fuel next ((g current).runFn shared).2) := by
  refine ⟨?_, ?_, ?_⟩
  · intro h
    simp only [executeAux]
    rw [if_pos h]
  · intro h hl
    simp only [executeAux]
    rw [if_neg h, hl]
  · intro next h hl
    simp only [executeAux]
    rw [if_neg h, hl]

/-- Witness for C2 on the concrete graph `wGraph`: from task `0` the loop
advances to the `"default"` successor `1`, and at task `1` the label
`"end"` stops it immediately. -/
theorem execute_iteration_behavior_witness :
    executeAux wGraph 2 0 [] = executeAux wGraph 1 1 [] ∧
    executeAux wGraph 1 1 [] = some (1, []) := by
  constructor
  · exact (execute_iteration_behavior wGraph 1 0 []).2.2 1 (by decide) rfl
  · exact (execute_iteration_behavior wGraph 0 1 []).1 (by decide)

/-- Counterexample for claim C6: on the graph `wGraph` the traversal started
at task `0` stops at task `1` (its `run` returned `"end"`), yet after
`execute` the flow object is unchanged and `getCurrentTask` still returns
task `0`, not the task at which the traversal stopped — `execute` never
writes the `currentTask` member. -/
theorem getCurrentTask_after_execute_cex :
    executeAux wGraph 2 0 [] = some (1, ([] : SharedData Nat)) ∧
    Flow.execute wGraph (Flow.make 0) 2 [] =
      some (([] : SharedData Nat), Flow.make 0) ∧
    (Flow.make 0).getCurrentTask = some 0 ∧
    ¬ (Flow.make 0).getCurrentTask = some 1 := by
  refine ⟨by decide, by decide, rfl, by decide⟩

/-- Claim C6 (amended): `Flow.execute` advances only a local cursor and
never modifies the flow's `currentTask` member: whenever `execute` returns,
the flow it returns is the unchanged input flow, so `getCurrentTask()`
afterwards yields the same value as before the call (the start task unless
`setCurrentTask` was used) — not the task at which the traversal stopped. -/
theorem execute_preserves_currentTask {V : Type} (g : Nat → FlowTask V)
    (f : Flow) (fuel : Nat) (shared : SharedData V)
    (out : SharedData V × Flow)
    (h : Flow.execute g f fuel shared = some out) :
    out.2.getCurrentTask = f.getCurrentTask := by
  unfold Flow.execute at h
  cases h' : executeAux g fuel (f.currentTask.getD f.startTask) shared with
  | none => rw [h'] at h; cases h
  | some p =>
    rw [h'] at h
    have : (p.2, f) = out := Option.some.inj h
    rw [← this]

/-- Witness for the amended C6: running `wGraph` to its stop leaves the
returned flow's cursor equal to the cursor before the call. -/
theorem execute_preserves_currentTask_witness :
    Flow.execute wGraph (Flow.make 0) 2 [] =
      some (([] : SharedData Nat), Flow.make 0) ∧
    (([] : SharedData Nat), Flow.make 0).2.getCurrentTask =
      (Flow.make 0).getCurrentTask :=
  ⟨by decide, execute_preserves_currentTask wGraph (Flow.make 0) 2 []
    ([], Flow.make 0) (by decide)⟩

theorem padTo_length {R : Type} (l : List (Option R)) (n : Nat) :
    (padTo l n).length = max l.length n := by
  simp only [padTo, List.length_append, List.length_replicate]
  omega

theorem setResult_length {R : Type} (l : List (Option R)) (i : Nat) (r : R) :
    (setResult l i r).length = max l.length (i + 1) := by
  simp only [setResult, List.length_set, padTo_length]

theorem padTo_getElem?_lt {R : Type} (l : List (Option R)) (n j : Nat)
    (h : j < l.length) : (padTo l n)[j]? = l[j]? := by
  simp only [padTo]
  exact List.getElem?_append_left h

theorem padTo_getElem?_pad {R : Type} (l : List (Option R)) (n j : Nat)
    (h1 : l.length ≤ j) (h2 : j < n) : (padTo l n)[j]? = some none := by
  simp only [padTo]
  rw [List.getElem?_append_right h1, List.getElem?_replicate, if_pos (by omega)]

theorem setResult_getElem?_self {R : Type} (l : List (Option R)) (i : Nat)
    (r : R) : (setResult l i r)[i]? = some (some r) := by
  simp only [setResult]
  exact List.getElem?_set_self (by rw [padTo_length]; omega)

theorem setResult_getElem?_lt {R : Type} (l : List (Option R)) (i j : Nat)
    (r : R) (h : j < i) :
    (setResult l i r)[j]? = if j < l.length then l[j]? else some none := by
  simp only [setResult]
  rw [List.getElem?_set_ne (by omega)]
  by_cases hj : j < l.length
  · rw [if_pos hj, padTo_getElem?_lt l (i + 1) j hj]
  · rw [if_neg hj, padTo_getElem?_pad l (i + 1) j (by omega) (by omega)]

theorem seqFold_nil {I R : Type} (e : I → Except String R)
    (st : Nat × List (Option R) × List (ErrorRecord I)) :
    seqFold e [] st = st := rfl

theorem seqFold_cons {I R : Type} (e : I → Except String R) (x : I)
    (xs : List I) (st : Nat × List (Option R) × List (ErrorRecord I)) :
    seqFold e (x :: xs) st = seqFold e xs (recordItem e st x) := rfl

theorem seqFold_counter {I R : Type} (e : I → Except String R) :
    ∀ (l : List I) (st : Nat × List (Option R) × List (ErrorRecord I)),
    (seqFold e l st).1 = st.1 + l.length := by
  intro l
  induction l with
  | nil => intro st; rfl
  | cons x xs ih =>
    intro st
    rw [seqFold_cons, ih]
    cases hx : e x <;> simp [recordItem, hx, List.length_cons] <;> omega

theorem seqFold_append {I R : Type} (e : I → Except String R) (l l' : List I)
    (st : Nat × List (Option R) × List (ErrorRecord I)) :
    seqFold e (l ++ l') st = seqFold e l' (seqFold e l st) := by
  simp only [seqFold, List.foldl_append]

/-- The per-batch fold of settled outcomes (`Promise.all` results processed
in launch order) is the sequential item-by-item fold, with the batch's start
index as the counter. -/
theorem settleBatch_foldl_eq_seqFold {I R : Type} (e : I → Except String R) :
    ∀ (l : List I) (g : Nat) (res : List (Option R))
      (err : List (ErrorRecord I)),
    (settleBatch e (g : Int) l).foldl recordOne (res, err) =
      (seqFold e l (g, res, err)).2 := by
  intro l
  induction l with
  | nil => intro g res err; rfl
  | cons x xs ih =>
    intro g res err
    rw [seqFold_cons]
    show (settleBatch e ((g : Nat) : Int) (x :: xs)).foldl recordOne (res, err) =
      (seqFold e xs (recordItem e (g, res, err) x)).2
    have hstep : ((g : Int) + 1) = (((g + 1 : Nat) : Nat) : Int) := by push_cast; ring
    cases hx : e x with
    | error msg =>
      have h1 : (settleBatch e (g : Int) (x :: xs)).foldl recordOne (res, err) =
          (settleBatch e ((g : Int) + 1) xs).foldl recordOne
            (res, err ++ [⟨(g : Int), msg, x⟩]) := by
        simp [settleBatch, recordOne, hx]
      have h2 : recordItem e (g, res, err) x =
          (g + 1, res, err ++ [⟨(g : Int), msg, x⟩]) := by
        simp [recordItem, hx]
      rw [h1, h2, hstep]
      exact ih (g + 1) res (err ++ [⟨(g : Int), msg, x⟩])
    | ok r =>
      have h1 : (settleBatch e (g : Int) (x :: xs)).foldl recordOne (res, err) =
          (settleBatch e ((g : Int) + 1) xs).foldl recordOne
            (setResult res g r, err) := by
        simp [settleBatch, recordOne, hx, Int.toNat_natCast]
      have h2 : recordItem e (g, res, err) x = (g + 1, setResult res g r, err) := by
        simp [recordItem, hx]
      rw [h1, h2, hstep]
      exact ih (g + 1) (setResult res g r) err

/-- Variant of the batch-fold bridge for a non-negative `Int` start index,
as the chunk loop supplies it. -/
theorem settleBatch_foldl_eq_seqFold_int {I R : Type} (e : I → Except String R)
    (l : List I) (i : Int) (hi : 0 ≤ i) (res : List (Option R))
    (err : List (ErrorRecord I)) :
    (settleBatch e i l).foldl recordOne (res, err) =
      (seqFold e l (i.toNat, res, err)).2 := by
  obtain ⟨n, rfl⟩ : ∃ n : Nat, i = (n : Int) := ⟨i.toNat, by omega⟩
  rw [Int.toNat_natCast]
  exact settleBatch_foldl_eq_seqFold e l n res err

/-- For a non-negative start and batch size, the JS slice
`items.slice(i, i + mc)` is `take mc` of `drop i`. -/
theorem jsSlice_nonneg {α : Type} (l : List α) (i mc : Int) (hi : 0 ≤ i)
    (hmc : 0 ≤ mc) :
    jsSlice l i (i + mc) = (l.drop i.toNat).take mc.toNat := by
  simp only [jsSlice]
  rw [if_neg (by omega), if_neg (by omega), List.drop_take]
  rcases le_or_lt (l.length : Int) i with hcase | hcase
  · have h1 : (min i (l.length : Int)).toNat = l.length := by omega
    have h2 : l.length ≤ i.toNat := by omega
    rw [h1, List.drop_eq_nil_iff.mpr le_rfl, List.drop_eq_nil_iff.mpr h2,
      List.take_nil, List.take_nil]
  · have h1 : (min i (l.length : Int)).toNat = i.toNat := by omega
    rw [h1]
    rcases le_or_lt ((i + mc : Int)) (l.length : Int) with hc2 | hc2
    · have h2 : (min (i + mc) (l.length : Int)).toNat = i.toNat + mc.toNat := by
        omega
      rw [h2]
      congr 1
      omega
    · have h2 : (min (i + mc) (l.length : Int)).toNat = l.length := by omega
      rw [h2]
      rw [List.take_eq_take.mpr]
      rw [List.length_drop]
      omega

/-- The chunk loop, whenever it finishes, computes exactly the sequential
item-by-item fold of the remaining items, indices counted from `i`. -/
theorem processChunks_eq_seqFold {I R : Type} (e : I → Except String R)
    (mc : Int) (items : List I) (hmc : 1 ≤ mc) :
    ∀ (fuel : Nat) (i : Int) (res : List (Option R))
      (err : List (ErrorRecord I))
      (out : List (Option R) × List (ErrorRecord I)),
    0 ≤ i →
    processChunks e mc items fuel i (res, err) = some out →
    out = (seqFold e (items.drop i.toNat) (i.toNat, res, err)).2 := by
  intro fuel
  induction fuel with
  | zero =>
    intro i res err out hi h
    exact absurd h (by simp [processChunks])
  | succ fuel ih =>
    intro i res err out hi h
    unfold processChunks at h
    by_cases hlt : i < (items.length : Int)
    · rw [if_pos hlt] at h
      rw [jsSlice_nonneg items i mc hi (by omega),
        settleBatch_foldl_eq_seqFold_int e _ i hi] at h
      set batch := (items.drop i.toNat).take mc.toNat with hbatch
      set st := seqFold e batch (i.toNat, res, err) with hst
      have hout := ih (i + mc) st.2.1 st.2.2 out (by omega) (by
        have : (st.2.1, st.2.2) = st.2 := rfl
        rw [this]; exact h)
      rw [hout]
      have hsplit : items.drop i.toNat = batch ++ items.drop (i.toNat + mc.toNat) := by
        rw [hbatch]
        conv_lhs => rw [← List.take_append_drop mc.toNat (items.drop i.toNat)]
        rw [List.drop_drop]
      have hitn : (i + mc).toNat = i.toNat + mc.toNat := by omega
      rw [hitn]
      conv_rhs => rw [hsplit, seqFold_append]
      rw [← hst]
      rcases le_or_lt mc.toNat (items.length - i.toNat) with hb | hb
      · have hlen : batch.length = mc.toNat := by
          rw [hbatch, List.length_take, List.length_drop]
          omega
        have hcnt : st.1 = i.toNat + mc.toNat := by
          rw [hst, seqFold_counter, hlen]
        rw [← hcnt]
      · have hnil : items.drop (i.toNat + mc.toNat) = [] := by
          rw [List.drop_eq_nil_iff]
          omega
        rw [hnil, seqFold_nil, seqFold_nil]
    · rw [if_neg hlt] at h
      have hnil : items.drop i.toNat = [] := by
        rw [List.drop_eq_nil_iff]
        omega
      rw [hnil, seqFold_nil]
      exact (Option.some.inj h).symm

/-- Top-level corollary: a finished `processInParallel` run is the
sequential fold over the whole input from index 0, and its counters are
the input length and the error-list length. -/
theorem processInParallel_eq {I R : Type} (e : I → Except String R)
    (mc : Int) (items : List I) (fuel : Nat) (res : ParallelTaskResult R I)
    (hmc : 1 ≤ mc) (h : processInParallel e mc items fuel = some res) :
    res.results = (seqFold e items (0, [], [])).2.1 ∧
    res.errors = (seqFold e items (0, [], [])).2.2 ∧
    res.totalProcessed = items.length ∧
    res.totalErrors = res.errors.length := by
  unfold processInParallel at h
  cases hc : processChunks e mc items fuel 0 ([], []) with
  | none => rw [hc] at h; cases h
  | some p =>
    rw [hc] at h
    have hp := processChunks_eq_seqFold e mc items hmc fuel 0 [] [] p le_rfl hc
    simp only [Int.toNat_zero, List.drop_zero] at hp
    cases p with
    | mk rs es =>
      have hres : res = ⟨rs, es, items.length, es.length⟩ := (Option.some.inj h).symm
      subst hres
      exact ⟨congrArg Prod.fst hp, congrArg Prod.snd hp, rfl, rfl⟩

/-- Frame property: folding items whose indices are all ≥ `g` never changes
a results position `j < g` that already exists. -/
theorem seqFold_results_frame {I R : Type} (e : I → Except String R) :
    ∀ (l : List I) (g : Nat) (res : List (Option R))
      (err : List (ErrorRecord I)) (j : Nat),
    j < res.length → j < g →
    ((seqFold e l (g, res, err)).2.1)[j]? = res[j]? := by
  intro l
  induction l with
  | nil => intros; rfl
  | cons x xs ih =>
    intro g res err j hj hjg
    rw [seqFold_cons]
    cases hx : e x with
    | error msg =>
      rw [show recordItem e (g, res, err) x =
        (g + 1, res, err ++ [⟨(g : Int), msg, x⟩]) by simp [recordItem, hx]]
      exact ih (g + 1) res _ j hj (by omega)
    | ok r =>
      rw [show recordItem e (g, res, err) x =
        (g + 1, setResult res g r, err) by simp [recordItem, hx]]
      rw [ih (g + 1) (setResult res g r) err j
        (by rw [setResult_length]; omega) (by omega)]
      rw [setResult_getElem?_lt res g j r hjg, if_pos hj]

/-- A success at offset `k` of the remaining items lands at results position
`g + k` (its original global index). -/
theorem seqFold_results_success {I R : Type} (e : I → Except String R) :
    ∀ (l : List I) (g : Nat) (res : List (Option R))
      (err : List (ErrorRecord I)) (k : Nat) (hk : k < l.length) (v : R),
    res.length ≤ g → e (l.get ⟨k, hk⟩) = .ok v →
    ((seqFold e l (g, res, err)).2.1)[g + k]? = some (some v) := by
  intro l
  induction l with
  | nil => intro g res err k hk; exact absurd hk (by simp)
  | cons x xs ih =>
    intro g res err k hk v hlen hv
    rw [seqFold_cons]
    match k with
    | 0 =>
      have hx : e x = .ok v := hv
      rw [show recordItem e (g, res, err) x =
        (g + 1, setResult res g v, err) by simp [recordItem, hx]]
      simp only [Nat.add_zero]
      rw [seqFold_results_frame e xs (g + 1) (setResult res g v) err g
        (by rw [setResult_length]; omega) (by omega)]
      exact setResult_getElem?_self res g v
    | k + 1 =>
      have hk' : k < xs.length := by simpa using hk
      have hv' : e (xs.get ⟨k, hk'⟩) = .ok v := by
        simpa [List.get_cons_succ] using hv
      have hpos : g + (k + 1) = (g + 1) + k := by omega
      rw [hpos]
      cases hx : e x with
      | error msg =>
        rw [show recordItem e (g, res, err) x =
          (g + 1, res, err ++ [⟨(g : Int), msg, x⟩]) by simp [recordItem, hx]]
        exact ih (g + 1) res _ k hk' v (by omega) hv'
      | ok r =>
        rw [show recordItem e (g, res, err) x =
          (g + 1, setResult res g r, err) by simp [recordItem, hx]]
        exact ih (g + 1) (setResult res g r) err k hk' v
          (by rw [setResult_length]; omega) hv'

/-- A position below every remaining index and at or above the current
results length either stays out of range or is back-filled with a `null`
placeholder by a later success's padding — it never receives a value. -/
theorem seqFold_results_pad {I R : Type} (e : I → Except String R) :
    ∀ (l : List I) (g : Nat) (res : List (Option R))
      (err : List (ErrorRecord I)) (p : Nat),
    res.length ≤ p → p < g →
    ((seqFold e l (g, res, err)).2.1)[p]? = none ∨
    ((seqFold e l (g, res, err)).2.1)[p]? = some none := by
  intro l
  induction l with
  | nil =>
    intro g res err p hp hpg
    exact Or.inl (List.getElem?_eq_none hp)
  | cons x xs ih =>
    intro g res err p hp hpg
    rw [seqFold_cons]
    cases hx : e x with
    | error msg =>
      rw [show recordItem e (g, res, err) x =
        (g + 1, res, err ++ [⟨(g : Int), msg, x⟩]) by simp [recordItem, hx]]
      exact ih (g + 1) res _ p hp (by omega)
    | ok r =>
      rw [show recordItem e (g, res, err) x =
        (g + 1, setResult res g r, err) by simp [recordItem, hx]]
      right
      rw [seqFold_results_frame e xs (g + 1) (setResult res g r) err p
        (by rw [setResult_length]; omega) (by omega)]
      rw [setResult_getElem?_lt res g p r hpg, if_neg (by omega)]

/-- A failing item never gets a value at its results position: that
position is either beyond the results length (trailing failures) or holds
the `null` placeholder (back-filled by a later success). -/
theorem seqFold_results_fail {I R : Type} (e : I → Except String R) :
    ∀ (l : List I) (g : Nat) (res : List (Option R))
      (err : List (ErrorRecord I)) (k : Nat) (hk : k < l.length)
      (msg : String),
    res.length ≤ g → e (l.get ⟨k, hk⟩) = .error msg →
    ((seqFold e l (g, res, err)).2.1)[g + k]? = none ∨
    ((seqFold e l (g, res, err)).2.1)[g + k]? = some none := by
  intro l
  induction l with
  | nil => intro g res err k hk; exact absurd hk (by simp)
  | cons x xs ih =>
    intro g res err k hk msg hlen hv
    rw [seqFold_cons]
    match k with
    | 0 =>
      have hx : e x = .error msg := hv
      rw [show recordItem e (g, res, err) x =
        (g + 1, res, err ++ [⟨(g : Int), msg, x⟩]) by simp [recordItem, hx]]
      simp only [Nat.add_zero]
      exact seqFold_results_pad e xs (g + 1) res _ g hlen (by omega)
    | k + 1 =>
      have hk' : k < xs.length := by simpa using hk
      have hv' : e (xs.get ⟨k, hk'⟩) = .error msg := by
        simpa [List.get_cons_succ] using hv
      have hpos : g + (k + 1) = (g + 1) + k := by omega
      rw [hpos]
      cases hx : e x with
      | error msg' =>
        rw [show recordItem e (g, res, err) x =
          (g + 1, res, err ++ [⟨(g : Int), msg', x⟩]) by simp [recordItem, hx]]
        exact ih (g + 1) res _ k hk' msg (by omega) hv'
      | ok r =>
        rw [show recordItem e (g, res, err) x =
          (g + 1, setResult res g r, err) by simp [recordItem, hx]]
        exact ih (g + 1) (setResult res g r) err k hk' msg
          (by rw [setResult_length]; omega) hv'

/-- The results array ends exactly one past the last successful index (and
keeps its initial length when nothing succeeds): growth happens only when a
success is recorded. -/
theorem seqFold_results_length {I R : Type} (e : I → Except String R) :
    ∀ (l : List I) (g : Nat) (res : List (Option R))
      (err : List (ErrorRecord I)),
    res.length ≤ g →
    ((seqFold e l (g, res, err)).2.1).length =
      (match lastSuccess e l with
       | some k => g + k + 1
       | none => res.length) := by
  intro l
  induction l with
  | nil => intro g res err _; rfl
  | cons x xs ih =>
    intro g res err hlen
    rw [seqFold_cons]
    cases hx : e x with
    | error msg =>
      rw [show recordItem e (g, res, err) x =
        (g + 1, res, err ++ [⟨(g : Int), msg, x⟩]) by simp [recordItem, hx]]
      rw [ih (g + 1) res _ (by omega)]
      simp only [lastSuccess, hx]
      cases lastSuccess e xs with
      | none => simp
      | some k => simp; omega
    | ok r =>
      rw [show recordItem e (g, res, err) x =
        (g + 1, setResult res g r, err) by simp [recordItem, hx]]
      rw [ih (g + 1) (setResult res g r) err (by rw [setResult_length]; omega)]
      simp only [lastSuccess, hx]
      cases lastSuccess e xs <;> simp [setResult_length] <;> omega

/-- The error list after the fold is the initial list extended by exactly
the records of the failing items, in input order. -/
theorem seqFold_errors {I R : Type} (e : I → Except String R) :
    ∀ (l : List I) (g : Nat) (res : List (Option R))
      (err : List (ErrorRecord I)),
    (seqFold e l (g, res, err)).2.2 = err ++ errListFrom e g l := by
  intro l
  induction l with
  | nil => intro g res err; simp [seqFold_nil, errListFrom]
  | cons x xs ih =>
    intro g res err
    rw [seqFold_cons]
    cases hx : e x with
    | error msg =>
      rw [show recordItem e (g, res, err) x =
        (g + 1, res, err ++ [⟨(g : Int), msg, x⟩]) by simp [recordItem, hx]]
      rw [ih (g + 1) res _]
      simp [errListFrom, hx]
    | ok r =>
      rw [show recordItem e (g, res, err) x =
        (g + 1, setResult res g r, err) by simp [recordItem, hx]]
      rw [ih (g + 1) (setResult res g r) err]
      simp [errListFrom, hx]

theorem chunkList_flatten_aux {α : Type} (mc : Nat) :
    ∀ (n : Nat) (l : List α), l.length ≤ n →
    (chunkList mc l).flatten = l := by
  intro n
  induction n with
  | zero =>
    intro l h
    have : l = [] := List.length_eq_zero.mp (by omega)
    subst this
    simp [chunkList]
  | succ n ih =>
    intro l h
    cases l with
    | nil => simp [chunkList]
    | cons x xs =>
      rw [chunkList]
      simp only [List.flatten_cons]
      rw [ih (xs.drop (mc - 1)) (by simp only [List.length_drop]; simp at h; omega)]
      simp only [List.cons_append, List.take_append_drop]

/-- The chunks concatenate back to the input: they partition it into
contiguous runs. -/
theorem chunkList_flatten {α : Type} (mc : Nat) (l : List α) :
    (chunkList mc l).flatten = l :=
  chunkList_flatten_aux mc l.length l le_rfl

theorem chunkList_mem_length_aux {α : Type} (mc : Nat) (hmc : 1 ≤ mc) :
    ∀ (n : Nat) (l : List α), l.length ≤ n →
    ∀ c ∈ chunkList mc l, c.length ≤ mc := by
  intro n
  induction n with
  | zero =>
    intro l h c hc
    have : l = [] := List.length_eq_zero.mp (by omega)
    subst this
    simp [chunkList] at hc
  | succ n ih =>
    intro l h c hc
    cases l with
    | nil => simp [chunkList] at hc
    | cons x xs =>
      rw [chunkList] at hc
      rcases List.mem_cons.mp hc with hc | hc
      · subst hc
        simp only [List.length_cons, List.length_take]
        omega
      · exact ih (xs.drop (mc - 1))
          (by simp only [List.length_drop]; simp at h; omega) c hc

/-- Every chunk is at most `mc` long: never more than `maxConcurrency`
items are launched together. -/
theorem chunkList_mem_length_le {α : Type} (mc : Nat) (hmc : 1 ≤ mc)
    (l : List α) : ∀ c ∈ chunkList mc l, c.length ≤ mc :=
  chunkList_mem_length_aux mc hmc l.length l le_rfl

theorem chunkList_eq_nil_iff {α : Type} (mc : Nat) (l : List α) :
    chunkList mc l = [] ↔ l = [] := by
  cases l with
  | nil => simp [chunkList]
  | cons x xs => rw [chunkList]; simp

theorem chunkList_mid_length_aux {α : Type} (mc : Nat) (hmc : 1 ≤ mc) :
    ∀ (n : Nat) (l : List α), l.length ≤ n →
    ∀ (j : Nat), j + 1 < (chunkList mc l).length →
    ((chunkList mc l)[j]?).map List.length = some mc := by
  intro n
  induction n with
  | zero =>
    intro l h j hj
    have : l = [] := List.length_eq_zero.mp (by omega)
    subst this
    simp [chunkList] at hj
  | succ n ih =>
    intro l h j hj
    cases l with
    | nil => simp [chunkList] at hj
    | cons x xs =>
      rw [chunkList] at hj ⊢
      match j with
      | 0 =>
        simp only [List.length_cons] at hj
        have hne : chunkList mc (xs.drop (mc - 1)) ≠ [] := by
          intro hnil
          rw [hnil] at hj
          simp at hj
        have hxs : ¬ xs.length ≤ mc - 1 := by
          intro hle
          exact hne ((chunkList_eq_nil_iff mc _).mpr
            (List.drop_eq_nil_iff.mpr hle))
        rw [List.getElem?_cons_zero]
        show some (x :: List.take (mc - 1) xs).length = some mc
        rw [List.length_cons, List.length_take, Nat.min_eq_left (by omega),
          Nat.sub_add_cancel hmc]
      | j + 1 =>
        simp only [List.length_cons] at hj
        simp only [List.getElem?_cons_succ]
        exact ih (xs.drop (mc - 1))
          (by simp only [List.length_drop]; simp at h; omega) j (by omega)

/-- Every chunk except possibly the last has length exactly `mc`. -/
theorem chunkList_mid_length {α : Type} (mc : Nat) (hmc : 1 ≤ mc)
    (l : List α) :
    ∀ (j : Nat), j + 1 < (chunkList mc l).length →
    ((chunkList mc l)[j]?).map List.length = some mc :=
  chunkList_mid_length_aux mc hmc l.length l le_rfl

/-- Folding the chunks one after the other (each chunk's items in launch
order) is the same as folding the whole input sequentially. -/
theorem chunkFold_eq_seqFold {I R : Type} (e : I → Except String R)
    (mc : Nat) (items : List I)
    (st : Nat × List (Option R) × List (ErrorRecord I)) :
    (chunkList mc items).foldl (fun s c => seqFold e c s) st =
      seqFold e items st := by
  conv_rhs => rw [← chunkList_flatten mc items]
  rw [seqFold, List.foldl_flatten]
  rfl

/-- With `maxConcurrency ≥ 1` the chunk loop finishes: the loop index grows
by at least 1 each iteration, so `length + 1` iterations suffice from
`i = 0`. -/
theorem processChunks_completes {I R : Type} (e : I → Except String R)
    (mc : Int) (items : List I) (hmc : 1 ≤ mc) :
    ∀ (fuel : Nat) (i : Int)
      (st : List (Option R) × List (ErrorRecord I)),
    0 ≤ i → (items.length : Int) - i ≤ fuel →
    ∃ out, processChunks e mc items (fuel + 1) i st = some out := by
  intro fuel
  induction fuel with
  | zero =>
    intro i st hi hle
    unfold processChunks
    rw [if_neg (by omega)]
    exact ⟨st, rfl⟩
  | succ fuel ih =>
    intro i st hi hle
    unfold processChunks
    by_cases hlt : i < (items.length : Int)
    · rw [if_pos hlt]
      exact ih (i + mc) _ (by omega) (by omega)
    · rw [if_neg hlt]
      exact ⟨st, rfl⟩

/-- With `maxConcurrency ≤ 0` and a non-empty input the loop index never
reaches the input length, so the loop consumes any amount of fuel. -/
theorem processChunks_diverges {I R : Type} (e : I → Except String R)
    (mc : Int) (items : List I) (hmc : mc ≤ 0) (hne : items ≠ []) :
    ∀ (fuel : Nat) (i : Int)
      (st : List (Option R) × List (ErrorRecord I)),
    i ≤ 0 → processChunks e mc items fuel i st = none := by
  intro fuel
  induction fuel with
  | zero => intros; rfl
  | succ fuel ih =>
    intro i st hi
    unfold processChunks
    have hpos : 0 < items.length := List.length_pos.mpr hne
    rw [if_pos (by omega)]
    exact ih (i + mc) _ (by omega)

/-- Claim C3: for every input of length N, every `maxConcurrency ≥ 1`, and
every index `k` whose per-item worker `execItem` succeeded, `results[k]` is
the value computed for the k-th input item.  The embedding is deterministic,
so completion timing does not appear; timing-independence is provided by the
code's index-addressed writes (`results[globalIndex] = result`, with
`Promise.all` preserving launch order), which the positional statement
captures. -/
theorem results_positional {I R : Type} (e : I → Except String R) (mc : Int)
    (items : List I) (fuel : Nat) (res : ParallelTaskResult R I)
    (hmc : 1 ≤ mc) (h : processInParallel e mc items fuel = some res)
    (k : Nat) (hk : k < items.length) (v : R)
    (hv : e (items.get ⟨k, hk⟩) = .ok v) :
    res.results[k]? = some (some v) := by
  obtain ⟨hres, -, -, -⟩ := processInParallel_eq e mc items fuel res hmc h
  rw [hres]
  have := seqFold_results_success e items 0 [] [] k hk v (by simp) hv
  simpa using this

/-- Witness for C3: on `wItems = [1, -5, 3]` with `maxConcurrency = 2`, the
item at index 2 (in the second chunk) lands at results position 2. -/
theorem results_positional_witness :
    processInParallel wExecItem 2 wItems 4 = some wRes ∧
    wRes.results[2]? = some (some 6) :=
  ⟨by decide, results_positional wExecItem 2 wItems 4 wRes (by decide)
    (by decide) 2 (by decide) 6 rfl⟩

/-- Claim C4: for every input of length N (including N = 0), the produced
`ParallelTaskResult` has `totalProcessed = N` and
`totalErrors = errors.length`, however many workers succeed or fail. -/
theorem counts_complete {I R : Type} (e : I → Except String R) (mc : Int)
    (items : List I) (fuel : Nat) (res : ParallelTaskResult R I)
    (h : processInParallel e mc items fuel = some res) :
    res.totalProcessed = items.length ∧
    res.totalErrors = res.errors.length := by
  unfold processInParallel at h
  cases hc : processChunks e mc items fuel 0 ([], []) with
  | none => rw [hc] at h; cases h
  | some p =>
    rw [hc] at h
    cases p with
    | mk rs es =>
      have hres : res = ⟨rs, es, items.length, es.length⟩ :=
        (Option.some.inj h).symm
      subst hres
      exact ⟨rfl, rfl⟩

/-- Witness for C4 at N = 0: the empty input yields
`totalProcessed = 0 = length` and `totalErrors = errors.length`. -/
theorem counts_complete_witness :
    processInParallel wExecItem 2 ([] : List Int) 1 = some ⟨[], [], 0, 0⟩ ∧
    (⟨[], [], 0, 0⟩ : ParallelTaskResult Int Int).totalProcessed =
      ([] : List Int).length ∧
    (⟨[], [], 0, 0⟩ : ParallelTaskResult Int Int).totalErrors =
      (⟨[], [], 0, 0⟩ : ParallelTaskResult Int Int).errors.length :=
  ⟨by decide, counts_complete wExecItem 2 [] 1 ⟨[], [], 0, 0⟩ (by decide)⟩

/-- Claim C5: the results array grows only when a success is recorded
(padded with empty placeholders up to the successful index), so its length
is one plus the largest succeeded index (zero when nothing succeeded) — in
particular shorter than the input when the tail of the input all fails —
and a failed index below that length holds the empty placeholder. -/
theorem results_sparse_length {I R : Type} (e : I → Except String R)
    (mc : Int) (items : List I) (fuel : Nat) (res : ParallelTaskResult R I)
    (hmc : 1 ≤ mc) (h : processInParallel e mc items fuel = some res) :
    res.results.length =
      (match lastSuccess e items with
       | some k => k + 1
       | none => 0) ∧
    (∀ (k : Nat) (hk : k < items.length) (msg : String),
      e (items.get ⟨k, hk⟩) = .error msg →
      res.results[k]? = none ∨ res.results[k]? = some none) := by
  obtain ⟨hres, -, -, -⟩ := processInParallel_eq e mc items fuel res hmc h
  constructor
  · rw [hres, seqFold_results_length e items 0 [] [] (by simp)]
    cases lastSuccess e items <;> simp
  · intro k hk msg hmsg
    rw [hres]
    have := seqFold_results_fail e items 0 [] [] k hk msg (by simp) hmsg
    simpa using this

/-- Witness for C5 on `wTailFail = [-1, 4, -2, -3]` (only index 1
succeeds): the results array has length 2 — shorter than the input — and
the failed index 0 holds the placeholder. -/
theorem results_sparse_length_witness :
    processInParallel wExecItem 2 wTailFail 5 = some wTailRes ∧
    wTailRes.results.length =
      (match lastSuccess wExecItem wTailFail with
       | some k => k + 1
       | none => 0) ∧
    (wTailRes.results[0]? = none ∨ wTailRes.results[0]? = some none) :=
  ⟨by decide,
   (results_sparse_length wExecItem 2 wTailFail 5 wTailRes (by decide)
     (by decide)).1,
   (results_sparse_length wExecItem 2 wTailFail 5 wTailRes (by decide)
     (by decide)).2 0 (by decide) "negative" rfl⟩

/-- Claim C7: a `ParallelTask` whose `prepare` returns the empty array
skips all processing and returns `"default"`, with no merge: the shared
context is returned untouched, so its value at the task's name key — and at
every other key — is unchanged. -/
theorem parallel_run_empty_skips {V I R : Type} (t : ParallelTask V I R)
    (fuel : Nat) (shared : SharedData V) (h : t.prepare shared = .ok []) :
    t.run fuel shared = some ("default", shared) ∧
    (∀ (key : String) (lbl : String) (s' : SharedData V),
      t.run fuel shared = some (lbl, s') →
      getKey s' key = getKey shared key) := by
  have h1 : t.run fuel shared = some ("default", shared) := by
    unfold ParallelTask.run
    rw [h]
    rfl
  refine ⟨h1, ?_⟩
  intro key lbl s' h2
  rw [h1] at h2
  injection h2 with h3
  injection h3 with h4 h5
  rw [← h5]

/-- Witness for C7: the concrete `emptyPrepTask` run on the empty shared
context returns `"default"` and leaves the context empty (nothing is stored
under its name key `"p"`). -/
theorem parallel_run_empty_skips_witness :
    emptyPrepTask.prepare [] = .ok [] ∧
    emptyPrepTask.run 3 [] = some ("default", []) ∧
    getKey ([] : SharedData (ParallelTaskResult Nat Nat)) "p" = none :=
  ⟨rfl, (parallel_run_empty_skips emptyPrepTask 3 [] rfl).1, rfl⟩

/-- Claim C8: failures are isolated and recorded exactly: `errors` is, in
order, exactly one `{index, error, item}` record per failing index (and no
record for a succeeding index), and a raising item does not prevent any
other item — in its own chunk or a later one — from being processed and
recorded at its position. -/
theorem error_isolation {I R : Type} (e : I → Except String R) (mc : Int)
    (items : List I) (fuel : Nat) (res : ParallelTaskResult R I)
    (hmc : 1 ≤ mc) (h : processInParallel e mc items fuel = some res) :
    res.errors = errListFrom e 0 items ∧
    (∀ (k : Nat) (hk : k < items.length) (v : R),
      e (items.get ⟨k, hk⟩) = .ok v → res.results[k]? = some (some v)) := by
  obtain ⟨hres, herr, -, -⟩ := processInParallel_eq e mc items fuel res hmc h
  constructor
  · rw [herr, seqFold_errors e items 0 [] []]
    simp
  · intro k hk v hv
    rw [hres]
    have := seqFold_results_success e items 0 [] [] k hk v (by simp) hv
    simpa using this

/-- Witness for C8 on `wItems = [1, -5, 3]`: the failing item −5 yields
exactly the one error record at index 1, while its chunk sibling (index 0)
and the later chunk's item (index 2) are both recorded. -/
theorem error_isolation_witness :
    processInParallel wExecItem 2 wItems 4 = some wRes ∧
    wRes.errors = errListFrom wExecItem 0 wItems ∧
    wRes.results[0]? = some (some 2) :=
  ⟨by decide,
   (error_isolation wExecItem 2 wItems 4 wRes (by decide) (by decide)).1,
   (error_isolation wExecItem 2 wItems 4 wRes (by decide) (by decide)).2
     0 (by decide) 2 rfl⟩

/-- Claim C9: the concurrency cap is enforced by the chunking scheme: the
input is partitioned into contiguous chunks of size `maxConcurrency` (the
last possibly shorter, every chunk at most `maxConcurrency` long — so at
most `maxConcurrency` workers are launched together), and the loop
processes chunk k+1 only after folding in every settled outcome of chunk k:
the final state is the strictly chunk-by-chunk fold. -/
theorem concurrency_cap_chunking {I R : Type} (e : I → Except String R)
    (mc : Int) (items : List I) (hmc : 1 ≤ mc) :
    (chunkList mc.toNat items).flatten = items ∧
    (∀ c ∈ chunkList mc.toNat items, c.length ≤ mc.toNat) ∧
    (∀ (j : Nat), j + 1 < (chunkList mc.toNat items).length →
      ((chunkList mc.toNat items)[j]?).map List.length = some mc.toNat) ∧
    (∀ (fuel : Nat) (res : ParallelTaskResult R I),
      processInParallel e mc items fuel = some res →
      (res.results, res.errors) =
        ((chunkList mc.toNat items).foldl (fun st c => seqFold e c st)
          (0, [], [])).2) := by
  have hmcn : 1 ≤ mc.toNat := by omega
  refine ⟨chunkList_flatten mc.toNat items,
    chunkList_mem_length_le mc.toNat hmcn items,
    chunkList_mid_length mc.toNat hmcn items, ?_⟩
  intro fuel res h
  obtain ⟨hres, herr, -, -⟩ := processInParallel_eq e mc items fuel res hmc h
  rw [chunkFold_eq_seqFold, hres, herr]

/-- Witness for C9: on `wItems` with `maxConcurrency = 2` the chunks
`[[1, -5], [3]]` flatten back to the input, and the chunk-by-chunk fold
reproduces the produced results and errors. -/
theorem concurrency_cap_chunking_witness :
    (chunkList 2 wItems).flatten = wItems ∧
    (wRes.results, wRes.errors) =
      ((chunkList 2 wItems).foldl (fun st c => seqFold wExecItem c st)
        (0, [], [])).2 :=
  ⟨(concurrency_cap_chunking wExecItem 2 wItems (by decide)).1,
   (concurrency_cap_chunking wExecItem 2 wItems (by decide)).2.2.2 4 wRes
     (by decide)⟩

/-- Claim C10: with `maxConcurrency ≥ 1` the chunk loop terminates for
every finite input — `length + 1` iterations of fuel always suffice — while
with `maxConcurrency ≤ 0` and a non-empty input the loop index never
reaches the input length and the call never completes (every fuel is
exhausted). -/
theorem processInParallel_termination {I R : Type} (e : I → Except String R)
    (mc : Int) (items : List I) :
    (1 ≤ mc →
      ∃ res, processInParallel e mc items (items.length + 1) = some res) ∧
    (mc ≤ 0 → items ≠ [] →
      ∀ fuel, processInParallel e mc items fuel = none) := by
  constructor
  · intro hmc
    obtain ⟨⟨rs, es⟩, hout⟩ := processChunks_completes e mc items hmc
      items.length 0 ([], []) le_rfl (by omega)
    refine ⟨⟨rs, es, items.length, es.length⟩, ?_⟩
    unfold processInParallel
    rw [hout]
  · intro hmc hne fuel
    unfold processInParallel
    rw [processChunks_diverges e mc items hmc hne fuel 0 ([], []) le_rfl]

/-- Witness for C10: on `wItems` the loop completes with fuel
`length + 1 = 4` when `maxConcurrency = 2`, and never completes when
`maxConcurrency = 0`. -/
theorem processInParallel_termination_witness :
    (∃ res, processInParallel wExecItem 2 wItems (wItems.length + 1) =
      some res) ∧
    processInParallel wExecItem 0 wItems 5 = none :=
  ⟨(processInParallel_termination wExecItem 2 wItems).1 (by decide),
   (processInParallel_termination wExecItem 0 wItems).2 (by decide)
     (by decide) 5⟩

end Tiny
